import Mathlib

/-!
Shallow embedding of the `moving_average` crate (simple moving averages over a
sliding window), together with proofs of the specification claims.

Modelling conventions:
* `Sample` is instantiated with `Int` (an exactly-representable sample type);
  `VecDeque` is a `List` whose head is the deque front and whose last element
  is the deque back (`push_front` = cons, `pop_back` = remove last).
* A Rust panic is modelled by `Option`/`none` on the operations that can panic.
* The `Divisor` type is abstracted by its fallible conversion
  `from_usize : Nat → Option Int`; `divisor_exact` is the conversion of a
  divisor type wide enough for every count (e.g. `i64`/`u64` in practice).
* Rust integer division truncates toward zero, which is `Int.tdiv`.
-/

/-- The mathematical sample window: the last `W` samples, newest first. -/
def windowOf (W : Nat) (vs : List Int) : List Int :=
  vs.reverse.take W

/-- Divisor conversion of a divisor type wide enough for every count. -/
def divisor_exact : Nat → Option Int :=
  fun n => some (n : Int)

/-! ## RingBuffer (src/ring_buffer.rs) -/

structure RingBuffer where
  items : List Int
  front_idx : Nat
  num_items : Nat
deriving Repr, DecidableEq

namespace RingBuffer

/-- `RingBuffer::new(zero)`: `items = [zero; CAPACITY]`, `front_idx = 0`, `num_items = 0`. -/
def new (C : Nat) (zero : Int) : RingBuffer :=
  ⟨List.replicate C zero, 0, 0⟩

/-- `wrapping_add::<MAX_VAL>(lhs, rhs) = (lhs + rhs) % MAX_VAL`; the remainder
operation faults when `MAX_VAL = 0` (division by zero). -/
def wrapping_add (maxVal lhs rhs : Nat) : Option Nat :=
  if maxVal = 0 then none else some ((lhs + rhs) % maxVal)

/-- `wrapping_sub::<MAX_VAL>(lhs, rhs)`; `MAX_VAL - rhs` underflows (debug
assertion `rhs <= MAX_VAL`) when `rhs > MAX_VAL`. -/
def wrapping_sub (maxVal lhs rhs : Nat) : Option Nat :=
  if maxVal < rhs then none
  else if lhs < rhs then some ((maxVal - rhs) + lhs)
  else some (lhs - rhs)

/-- `push_front`: write `item` at `front_idx` (out-of-bounds faults), advance
`front_idx` with `wrapping_add`, saturate `num_items` at `CAPACITY`. -/
def push_front (C : Nat) (rb : RingBuffer) (item : Int) : Option RingBuffer :=
  if rb.front_idx < rb.items.length then
    match wrapping_add C rb.front_idx 1 with
    | none => none
    | some fi => some ⟨rb.items.set rb.front_idx item, fi, min C (rb.num_items + 1)⟩
  else none

/-- `pop_back`: when non-empty, return the item at `front_idx - num_items`
(wrapping) and decrement the count; `none` in the pair means the Rust `None`. -/
def pop_back (C : Nat) (rb : RingBuffer) : Option (Option Int × RingBuffer) :=
  if 0 < rb.num_items then
    match wrapping_sub C rb.front_idx rb.num_items with
    | none => none
    | some idx =>
      match rb.items[idx]? with
      | none => none
      | some v => some (some v, ⟨rb.items, rb.front_idx, rb.num_items - 1⟩)
  else some (none, rb)

/-- `front`: the item at `front_idx - 1` (wrapping) when non-empty. -/
def front (C : Nat) (rb : RingBuffer) : Option (Option Int) :=
  if 0 < rb.num_items then
    match wrapping_sub C rb.front_idx 1 with
    | none => none
    | some idx => (rb.items[idx]?).map some
  else some none

/-- `shift`: pop the back when full, then push the new item to the front. -/
def shift (C : Nat) (rb : RingBuffer) (item : Int) : Option (Option Int × RingBuffer) :=
  if rb.num_items = C then
    match pop_back C rb with
    | none => none
    | some (popped, rb1) =>
      match push_front C rb1 item with
      | none => none
      | some rb2 => some (popped, rb2)
  else
    match push_front C rb item with
    | none => none
    | some rb2 => some (none, rb2)

/-- The iterator `Iter::next` loop: read `n` items starting at `cursor`,
advancing with `wrapping_add`. -/
def iterAux (C : Nat) (items : List Int) : Nat → Nat → Option (List Int)
  | _, 0 => some []
  | cursor, Nat.succ k =>
    match items[cursor]? with
    | none => none
    | some v =>
      match wrapping_add C cursor 1 with
      | none => none
      | some c2 =>
        match iterAux C items c2 k with
        | none => none
        | some rest => some (v :: rest)

/-- `iter().collect()`: cursor starts at `front_idx - num_items` (wrapping). -/
def iterList (C : Nat) (rb : RingBuffer) : Option (List Int) :=
  match wrapping_sub C rb.front_idx rb.num_items with
  | none => none
  | some c0 => iterAux C rb.items c0 rb.num_items

/-- The ring-buffer representation invariant, for `CAPACITY ≥ 1`. -/
def RBInv (C : Nat) (rb : RingBuffer) : Prop :=
  rb.items.length = C ∧ rb.front_idx < C ∧ rb.num_items ≤ C

instance (C : Nat) (rb : RingBuffer) : Decidable (RBInv C rb) := by
  unfold RBInv; infer_instance

end RingBuffer

/-! ## NoSumMovingAverage (src/no_sum_moving_average.rs) -/

structure NoSumMovingAverage where
  samples : List Int
  zero : Int
deriving Repr, DecidableEq

namespace NoSumMovingAverage

/-- `NoSumMovingAverage::from_zero(zero)`. -/
def from_zero (z : Int) : NoSumMovingAverage :=
  ⟨[], z⟩

/-- `add_sample`: early return if `WINDOW_SIZE == 0`; pop the back when at
capacity; push the new sample to the front. -/
def add_sample (W : Nat) (st : NoSumMovingAverage) (v : Int) : NoSumMovingAverage :=
  if W = 0 then st
  else
    ⟨v :: (if st.samples.length = W then st.samples.dropLast else st.samples), st.zero⟩

/-- `get_average`: zero when empty, otherwise the freshly recomputed sum
(`for sample in &self.samples { sum += *sample }`, starting from `self.zero`)
divided by the count; `none` models the divisor-conversion panic. -/
def get_average (fu : Nat → Option Int) (st : NoSumMovingAverage) : Option Int :=
  if st.samples.length = 0 then some st.zero
  else
    match fu st.samples.length with
    | none => none
    | some d => some (Int.tdiv (st.samples.foldl (· + ·) st.zero) d)

/-- `get_most_recent_sample`: `self.samples.front().cloned()`. -/
def get_most_recent_sample (st : NoSumMovingAverage) : Option Int :=
  st.samples.head?

/-- `get_samples`: `make_contiguous` then the whole deque front-to-back. -/
def get_samples (st : NoSumMovingAverage) : List Int :=
  st.samples

/-- `get_num_samples`. -/
def get_num_samples (st : NoSumMovingAverage) : Nat :=
  st.samples.length

/-- `get_sample_window_size`. -/
def get_sample_window_size (W : Nat) (_ : NoSumMovingAverage) : Nat :=
  W

end NoSumMovingAverage

/-! ## SingleSumSMA (src/single_sum_sma.rs) -/

structure SingleSumSMA where
  samples : List Int
  sum : Int
deriving Repr, DecidableEq

namespace SingleSumSMA

/-- `SingleSumSMA::from_zero(zero)`. -/
def from_zero (z : Int) : SingleSumSMA :=
  ⟨[], z⟩

/-- `add_sample`: early return if `WINDOW_SIZE == 0`; `sum += new_sample`;
when at capacity, `sum -= pop_back().unwrap_or(sum)`; push the new sample. -/
def add_sample (W : Nat) (st : SingleSumSMA) (v : Int) : SingleSumSMA :=
  if W = 0 then st
  else
    let sum1 := st.sum + v
    if st.samples.length = W then
      ⟨v :: st.samples.dropLast, sum1 - st.samples.getLast?.getD sum1⟩
    else
      ⟨v :: st.samples, sum1⟩

/-- `get_average`: cached sum when empty (the construction zero), otherwise
the cached sum divided by the count. -/
def get_average (fu : Nat → Option Int) (st : SingleSumSMA) : Option Int :=
  if st.samples.length = 0 then some st.sum
  else
    match fu st.samples.length with
    | none => none
    | some d => some (Int.tdiv st.sum d)

/-- `get_most_recent_sample`. -/
def get_most_recent_sample (st : SingleSumSMA) : Option Int :=
  st.samples.head?

/-- `get_samples`. -/
def get_samples (st : SingleSumSMA) : List Int :=
  st.samples

/-- `get_num_samples`. -/
def get_num_samples (st : SingleSumSMA) : Nat :=
  st.samples.length

/-- `get_sample_window_size`. -/
def get_sample_window_size (W : Nat) (_ : SingleSumSMA) : Nat :=
  W

end SingleSumSMA

/-! ## SumTree (spec-modelled) and SumTreeMovingAverage
    (src/sum_tree_moving_average.rs) -/

/-- Modelled from the spec: `src/sum_tree.rs` is declared in `lib.rs` but is
not among the sources. Per spec §4.2 the tree keeps `capacity` leaf slots, all
initialised to the zero value; the root always holds the sum of all leaves
(the zero value itself when the capacity is 0); `update_leaf_node_sample`
overwrites one leaf; `get_leaf_nodes_slice` returns all leaf slots in
slot-index order. The internal partial-sum nodes are observationally the sum
of the leaves under exact arithmetic, so the model keeps only the leaves. -/
structure SumTree where
  zeroVal : Int
  leaves : List Int
deriving Repr, DecidableEq

namespace SumTree

/-- Modelled from the spec: `SumTree::new(zero_value, capacity)` initialises
every one of the `capacity` leaf slots to `zero_value`. -/
def new (z : Int) (cap : Nat) : SumTree :=
  ⟨z, List.replicate cap z⟩

/-- Modelled from the spec: overwrite the leaf at `slot_index` with
`new_value` (ancestor re-summing is observationally absorbed into
`get_root_sum`). -/
def update_leaf_node_sample (t : SumTree) (i : Nat) (v : Int) : SumTree :=
  ⟨t.zeroVal, t.leaves.set i v⟩

/-- Modelled from the spec: the root holds the sum of all leaves; with zero
capacity it equals the construction zero value. -/
def get_root_sum (t : SumTree) : Int :=
  match t.leaves with
  | [] => t.zeroVal
  | x :: xs => xs.foldl (· + ·) x

/-- Modelled from the spec: the current value of one leaf slot; out-of-range
indices are a contract violation, modelled by `none`. -/
def get_leaf_node_sum (t : SumTree) (i : Nat) : Option Int :=
  t.leaves[i]?

/-- Modelled from the spec: all leaf slots in slot-index order. -/
def get_leaf_nodes_slice (t : SumTree) : List Int :=
  t.leaves

end SumTree

structure SumTreeMovingAverage where
  samples : List Nat
  sumTree : SumTree
deriving Repr, DecidableEq

namespace SumTreeMovingAverage

/-- `SumTreeMovingAverage::from_zero(zero)`. -/
def from_zero (z : Int) (W : Nat) : SumTreeMovingAverage :=
  ⟨[], SumTree.new z W⟩

/-- `add_sample`: early return if `WINDOW_SIZE == 0`; choose the tree slot
(the next unused index while filling, else `pop_back().unwrap()` — the
unreachable default `W` models the unwrap), update that leaf, push the slot
index to the front of the position queue. -/
def add_sample (W : Nat) (st : SumTreeMovingAverage) (v : Int) : SumTreeMovingAverage :=
  if W = 0 then st
  else
    let idx := if st.samples.length < W then st.samples.length else st.samples.getLast?.getD W
    ⟨idx :: (if st.samples.length < W then st.samples else st.samples.dropLast),
     st.sumTree.update_leaf_node_sample idx v⟩

/-- The `pop_back().unwrap()` in `add_sample` would panic: the `else` branch
is reached (`WINDOW_SIZE != 0` and the queue is not shorter than the window)
with an empty queue. -/
def pop_back_faults (W : Nat) (st : SumTreeMovingAverage) : Prop :=
  W ≠ 0 ∧ W ≤ st.samples.length ∧ st.samples = []

instance (W : Nat) (st : SumTreeMovingAverage) : Decidable (pop_back_faults W st) := by
  unfold pop_back_faults; infer_instance

/-- `get_average`: the root sum when empty, otherwise the root sum divided by
the count; `none` models the divisor-conversion panic. -/
def get_average (fu : Nat → Option Int) (st : SumTreeMovingAverage) : Option Int :=
  if st.samples.length = 0 then some st.sumTree.get_root_sum
  else
    match fu st.samples.length with
    | none => none
    | some d => some (Int.tdiv st.sumTree.get_root_sum d)

/-- `get_most_recent_sample`: front of the position queue, read through
`get_leaf_node_sum`. -/
def get_most_recent_sample (st : SumTreeMovingAverage) : Option Int :=
  st.samples.head?.bind (fun i => st.sumTree.get_leaf_node_sum i)

/-- `get_samples`: `sum_tree.get_leaf_nodes_slice()`. -/
def get_samples (st : SumTreeMovingAverage) : List Int :=
  st.sumTree.get_leaf_nodes_slice

/-- `get_num_samples`. -/
def get_num_samples (st : SumTreeMovingAverage) : Nat :=
  st.samples.length

/-- `get_sample_window_size`. -/
def get_sample_window_size (W : Nat) (_ : SumTreeMovingAverage) : Nat :=
  W

/-- The insertion algorithm exactly as the spec (§4.5) words it: if the
window is not yet full, allocate the next unused slot index; if full, reuse
the slot index popped from the back of the position queue; write the new
value to that leaf via `update_leaf_node_sample`; push the slot index onto
the front of the position queue. -/
def add_sample_spec_alg (W : Nat) (st : SumTreeMovingAverage) (v : Int) : SumTreeMovingAverage :=
  if W = 0 then st
  else if st.samples.length < W then
    let idx := st.samples.length
    ⟨idx :: st.samples, st.sumTree.update_leaf_node_sample idx v⟩
  else
    match st.samples.getLast? with
    | some idx => ⟨idx :: st.samples.dropLast, st.sumTree.update_leaf_node_sample idx v⟩
    | none => ⟨W :: st.samples, st.sumTree.update_leaf_node_sample W v⟩

end SumTreeMovingAverage

/-! ## Running a sequence of insertions -/

/-- Feed the samples `vs`, in order, to a fresh `NoSumMovingAverage`. -/
def runNoSum (W : Nat) (z : Int) (vs : List Int) : NoSumMovingAverage :=
  vs.foldl (NoSumMovingAverage.add_sample W) (NoSumMovingAverage.from_zero z)

/-- Feed the samples `vs`, in order, to a fresh `SingleSumSMA`. -/
def runSingleSum (W : Nat) (z : Int) (vs : List Int) : SingleSumSMA :=
  vs.foldl (SingleSumSMA.add_sample W) (SingleSumSMA.from_zero z)

/-- Feed the samples `vs`, in order, to a fresh `SumTreeMovingAverage`. -/
def runSumTree (W : Nat) (z : Int) (vs : List Int) : SumTreeMovingAverage :=
  vs.foldl (SumTreeMovingAverage.add_sample W) (SumTreeMovingAverage.from_zero z W)

example : (runNoSum 3 0 [1, 2, 3, 4, 10]).get_average divisor_exact = some 5 := by decide
example : (runSingleSum 3 0 [1, 2, 3, 4, 10]).get_average divisor_exact = some 5 := by decide
example : (runSumTree 3 0 [1, 2, 3, 4, 10]).get_average divisor_exact = some 5 := by decide
example : (runSumTree 3 0 [1, 2]).get_samples = [1, 2, 0] := by decide
example : (runSumTree 2 0 [1, 2, 3]).get_samples = [3, 2] := by decide
example : (runSumTree 2 0 [1, 2, 3]).get_most_recent_sample = some 3 := by decide

/-! ## Helper lemmas: the sample window -/

lemma foldl_add_eq_add_sum (z : Int) (l : List Int) : l.foldl (· + ·) z = z + l.sum := by
  induction l generalizing z with
  | nil => simp
  | cons a l ih => simp [List.foldl_cons, ih (z + a), List.sum_cons]; ring

lemma windowOf_nil (W : Nat) : windowOf W [] = [] := by
  simp [windowOf]

lemma windowOf_zero (vs : List Int) : windowOf 0 vs = [] := by
  simp [windowOf]

lemma length_windowOf (W : Nat) (vs : List Int) :
    (windowOf W vs).length = min vs.length W := by
  simp [windowOf, Nat.min_comm]

lemma windowOf_of_lt (W : Nat) (vs : List Int) (h : vs.length < W) :
    windowOf W vs = vs.reverse := by
  unfold windowOf
  exact List.take_of_length_le (by simpa using Nat.le_of_lt h)

lemma windowOf_append (W : Nat) (vs : List Int) (v : Int) :
    windowOf W (vs ++ [v]) = (v :: vs.reverse).take W := by
  simp [windowOf]

lemma windowOf_append_of_lt (W : Nat) (vs : List Int) (v : Int) (h : vs.length < W) :
    windowOf W (vs ++ [v]) = v :: vs.reverse := by
  rw [windowOf_append]
  exact List.take_of_length_le (by simpa using h)

lemma dropLast_windowOf (W : Nat) (vs : List Int) (_hW : W ≠ 0) (h : W ≤ vs.length) :
    (windowOf W vs).dropLast = vs.reverse.take (W - 1) := by
  have hlen : (windowOf W vs).length = W := by
    rw [length_windowOf]; omega
  rw [List.dropLast_eq_take, hlen]
  unfold windowOf
  rw [List.take_take]
  congr 1
  omega

lemma windowOf_append_of_ge (W : Nat) (vs : List Int) (v : Int) (hW : W ≠ 0)
    (h : W ≤ vs.length) :
    windowOf W (vs ++ [v]) = v :: (windowOf W vs).dropLast := by
  obtain ⟨m, rfl⟩ : ∃ m, W = m + 1 := ⟨W - 1, by omega⟩
  rw [windowOf_append, List.take_succ_cons, dropLast_windowOf _ _ hW h]
  simp

lemma windowOf_ne_nil (W : Nat) (vs : List Int) (hW : W ≠ 0) (hvs : vs ≠ []) :
    windowOf W vs ≠ [] := by
  have : (windowOf W vs).length ≠ 0 := by
    rw [length_windowOf]
    have : vs.length ≠ 0 := by simpa using List.length_pos.mpr hvs |>.ne'
    omega
  exact fun hc => this (by simp [hc])

/-! ## Helper lemmas: NoSumMovingAverage runs -/

lemma noSum_add_sample_window (W : Nat) (z : Int) (h : List Int) (v : Int) :
    NoSumMovingAverage.add_sample W ⟨windowOf W h, z⟩ v = ⟨windowOf W (h ++ [v]), z⟩ := by
  unfold NoSumMovingAverage.add_sample
  by_cases hW : W = 0
  · simp [hW, windowOf_zero]
  · simp only [hW, if_false]
    by_cases hfull : (windowOf W h).length = W
    · have hge : W ≤ h.length := by
        rw [length_windowOf] at hfull; omega
      simp [hfull, windowOf_append_of_ge W h v hW hge]
    · have hlt : h.length < W := by
        rw [length_windowOf] at hfull; omega
      rw [windowOf_of_lt W h hlt, windowOf_append_of_lt W h v hlt]
      have hne : ¬(h.length = W) := Nat.ne_of_lt hlt
      simp [hne]

lemma runNoSum_from (W : Nat) (z : Int) (vs : List Int) :
    ∀ h : List Int,
      vs.foldl (NoSumMovingAverage.add_sample W) ⟨windowOf W h, z⟩ =
        ⟨windowOf W (h ++ vs), z⟩ := by
  induction vs with
  | nil => intro h; simp
  | cons v vs ih =>
    intro h
    rw [List.foldl_cons, noSum_add_sample_window, ih (h ++ [v])]
    simp

lemma runNoSum_eq (W : Nat) (z : Int) (vs : List Int) :
    runNoSum W z vs = ⟨windowOf W vs, z⟩ := by
  have := runNoSum_from W z vs []
  simpa [runNoSum, NoSumMovingAverage.from_zero, windowOf_nil] using this

/-! ## Helper lemmas: SingleSumSMA runs -/

lemma singleSum_add_sample_window (W : Nat) (z : Int) (h : List Int) (v : Int) :
    SingleSumSMA.add_sample W ⟨windowOf W h, z + (windowOf W h).sum⟩ v =
      ⟨windowOf W (h ++ [v]), z + (windowOf W (h ++ [v])).sum⟩ := by
  unfold SingleSumSMA.add_sample
  by_cases hW : W = 0
  · simp [hW, windowOf_zero]
  · simp only [hW, if_false]
    by_cases hfull : (windowOf W h).length = W
    · have hge : W ≤ h.length := by
        rw [length_windowOf] at hfull; omega
      have hne : windowOf W h ≠ [] := by
        intro hc
        rw [hc] at hfull
        simp at hfull
        exact hW hfull.symm
      have hsplit : (windowOf W h).dropLast ++ [(windowOf W h).getLast hne] = windowOf W h :=
        List.dropLast_append_getLast hne
      have hsum : (windowOf W h).sum =
          (windowOf W h).dropLast.sum + (windowOf W h).getLast hne := by
        conv_lhs => rw [← hsplit]
        simp
      simp only [hfull, if_true, List.getLast?_eq_getLast _ hne, Option.getD_some,
        windowOf_append_of_ge W h v hW hge, SingleSumSMA.mk.injEq]
      refine ⟨trivial, ?_⟩
      rw [List.sum_cons, hsum]; ring
    · have hlt : h.length < W := by
        rw [length_windowOf] at hfull; omega
      rw [windowOf_of_lt W h hlt, windowOf_append_of_lt W h v hlt]
      have hnel : ¬(h.reverse.length = W) := by
        simpa using Nat.ne_of_lt hlt
      simp only [hnel, if_false, SingleSumSMA.mk.injEq]
      refine ⟨trivial, ?_⟩
      rw [List.sum_cons, ← windowOf_of_lt W h hlt]
      rw [windowOf_of_lt W h hlt]
      ring

lemma runSingleSum_from (W : Nat) (z : Int) (vs : List Int) :
    ∀ h : List Int,
      vs.foldl (SingleSumSMA.add_sample W) ⟨windowOf W h, z + (windowOf W h).sum⟩ =
        ⟨windowOf W (h ++ vs), z + (windowOf W (h ++ vs)).sum⟩ := by
  induction vs with
  | nil => intro h; simp
  | cons v vs ih =>
    intro h
    rw [List.foldl_cons, singleSum_add_sample_window, ih (h ++ [v])]
    simp

lemma runSingleSum_eq (W : Nat) (z : Int) (vs : List Int) :
    runSingleSum W z vs = ⟨windowOf W vs, z + (windowOf W vs).sum⟩ := by
  have := runSingleSum_from W z vs []
  simpa [runSingleSum, SingleSumSMA.from_zero, windowOf_nil] using this

/-! ## Helper lemmas: SumTreeMovingAverage runs -/

/-- Leaf access with default 0, used to state the bookkeeping invariant. -/
def leafD (st : SumTreeMovingAverage) (i : Nat) : Int :=
  st.sumTree.leaves.getD i 0

/-- Bookkeeping invariant of a `SumTreeMovingAverage` (zero value 0) that has
been fed the samples `vs`: the position queue holds pairwise-distinct in-range
slot indices, newest first; reading the leaves through the queue yields the
sample window; while the window is filling, the queue is exactly
`[n-1, …, 1, 0]` and the unused slots still hold 0; once full, the queue is a
permutation of all slot indices. -/
def STInv (W : Nat) (vs : List Int) (st : SumTreeMovingAverage) : Prop :=
  st.sumTree.zeroVal = 0 ∧
  st.sumTree.leaves.length = W ∧
  st.samples.Nodup ∧
  (∀ i ∈ st.samples, i < W) ∧
  st.samples.length = min vs.length W ∧
  st.samples.map (fun i => st.sumTree.leaves.getD i 0) = windowOf W vs ∧
  (vs.length < W → st.samples = (List.range vs.length).reverse ∧
      ∀ i, vs.length ≤ i → st.sumTree.leaves.getD i 0 = 0) ∧
  (W ≤ vs.length → st.samples.Perm (List.range W))

lemma getD_set_self {l : List Int} {i : Nat} {v : Int} (h : i < l.length) :
    (l.set i v).getD i 0 = v := by
  rw [List.getD_eq_getElem?_getD, List.getElem?_set_self (by simpa using h)]
  rfl

lemma getD_set_ne {l : List Int} {i j : Nat} {v : Int} (h : i ≠ j) :
    (l.set i v).getD j 0 = l.getD j 0 := by
  rw [List.getD_eq_getElem?_getD, List.getElem?_set_ne h, ← List.getD_eq_getElem?_getD]

lemma STInv_init (W : Nat) : STInv W [] (SumTreeMovingAverage.from_zero 0 W) := by
  unfold STInv SumTreeMovingAverage.from_zero SumTree.new
  refine ⟨rfl, by simp, by simp, by simp, by simp, by simp [windowOf_nil], ?_, ?_⟩
  · intro _
    refine ⟨by simp, ?_⟩
    intro i _
    rw [List.getD_eq_getElem?_getD]
    simp only [List.getElem?_replicate]
    by_cases hi : i < W <;> simp [hi]
  · intro hW
    simp only [List.length_nil, Nat.le_zero] at hW
    simp [hW]

lemma STInv_step (W : Nat) (vs : List Int) (v : Int) (st : SumTreeMovingAverage)
    (h : STInv W vs st) : STInv W (vs ++ [v]) (st.add_sample W v) := by
  obtain ⟨hz, hlen, hnd, hbd, hcnt, hmap, hpart, hfull⟩ := h
  by_cases hW : W = 0
  · -- zero window: add_sample is the identity and the queue stays empty
    subst hW
    have hsam : st.samples = [] := List.length_eq_zero.mp (by omega)
    unfold SumTreeMovingAverage.add_sample
    simp only [if_pos rfl]
    exact ⟨hz, hlen, hnd, hbd, by simp [hsam], by simp [hsam, windowOf_zero],
      by omega, fun _ => by simp [hsam]⟩
  · by_cases hlt : st.samples.length < W
    · -- filling phase: allocate the next unused slot index
      have hvs : vs.length < W := by omega
      have hn : st.samples.length = vs.length := by omega
      obtain ⟨hq, hz0⟩ := hpart hvs
      set n := vs.length with hn_def
      have hmemq : ∀ i ∈ st.samples, i < n := by
        intro i hi
        rw [hq] at hi
        simpa using hi
      unfold SumTreeMovingAverage.add_sample SumTree.update_leaf_node_sample
      simp only [if_neg hW, if_pos hlt]
      rw [hn]
      refine ⟨hz, by simpa using hlen, ?_, ?_, ?_, ?_, ?_, ?_⟩
      · -- Nodup
        refine List.nodup_cons.mpr ⟨?_, hnd⟩
        intro hc
        exact absurd (hmemq _ hc) (by omega)
      · -- bounds
        intro i hi
        rcases List.mem_cons.mp hi with hi | hi
        · omega
        · exact hbd i hi
      · -- count
        simp only [List.length_cons, List.length_append, List.length_singleton,
          List.length_nil]
        omega
      · -- reading the leaves through the queue gives the window
        rw [List.map_cons]
        have hhead : (st.sumTree.leaves.set n v).getD n 0 = v :=
          getD_set_self (by omega)
        have htail :
            st.samples.map (fun i => (st.sumTree.leaves.set n v).getD i 0) =
              st.samples.map (fun i => st.sumTree.leaves.getD i 0) := by
          refine List.map_congr_left ?_
          intro i hi
          exact getD_set_ne (by have := hmemq i hi; omega)
        rw [hhead, htail, hmap, windowOf_of_lt W vs hvs,
          windowOf_append_of_lt W vs v hvs]
      · -- still filling
        intro hlt2
        simp only [List.length_append, List.length_singleton, List.length_nil,
          List.length_cons] at hlt2
        constructor
        · rw [hq]
          simp [List.range_succ]
        · intro i hi
          simp only [List.length_append, List.length_singleton, List.length_nil,
            List.length_cons] at hi
          rw [getD_set_ne (by omega)]
          exact hz0 i (by omega)
      · -- just became full
        intro hge2
        simp only [List.length_append, List.length_singleton, List.length_nil,
          List.length_cons] at hge2
        have hWn : W = n + 1 := by omega
        have hrw : (n :: (List.range n).reverse : List Nat) =
            (List.range (n + 1)).reverse := by
          simp [List.range_succ]
        rw [hq, hWn, hrw]
        exact List.reverse_perm _
    · -- full phase: reuse the slot of the evicted sample
      have hcW : st.samples.length = W := by omega
      have hvs : W ≤ vs.length := by omega
      have hne : st.samples ≠ [] := by
        intro hc
        rw [hc] at hcW
        exact hW (by simpa using hcW.symm)
      have hlast : st.samples.getLast? = some (st.samples.getLast hne) :=
        List.getLast?_eq_getLast _ hne
      set idx := st.samples.getLast hne with hidx_def
      have hidx_mem : idx ∈ st.samples := List.getLast_mem hne
      have hidxW : idx < W := hbd _ hidx_mem
      have hsplit : st.samples.dropLast ++ [idx] = st.samples :=
        List.dropLast_append_getLast hne
      have hnd' : st.samples.dropLast.Nodup ∧ idx ∉ st.samples.dropLast := by
        have := hnd
        rw [← hsplit] at this
        rw [List.nodup_append] at this
        exact ⟨this.1, fun hc => this.2.2 hc (by simp)⟩
      unfold SumTreeMovingAverage.add_sample SumTree.update_leaf_node_sample
      simp only [if_neg hW, if_neg hlt, hlast, Option.getD_some]
      refine ⟨hz, by simpa using hlen, ?_, ?_, ?_, ?_, ?_, ?_⟩
      · exact List.nodup_cons.mpr ⟨hnd'.2, hnd'.1⟩
      · intro i hi
        rcases List.mem_cons.mp hi with hi | hi
        · rw [hi]; exact hidxW
        · exact hbd i ((List.dropLast_sublist _).mem hi)
      · simp only [List.length_cons, List.length_dropLast,
          List.length_append, List.length_singleton, List.length_nil]
        omega
      · rw [List.map_cons]
        have hhead : (st.sumTree.leaves.set idx v).getD idx 0 = v :=
          getD_set_self (by omega)
        have htail :
            st.samples.dropLast.map (fun i => (st.sumTree.leaves.set idx v).getD i 0) =
              st.samples.dropLast.map (fun i => st.sumTree.leaves.getD i 0) := by
          refine List.map_congr_left ?_
          intro i hi
          refine getD_set_ne ?_
          intro hc
          exact hnd'.2 (hc ▸ hi)
        rw [hhead, htail, List.map_dropLast, hmap,
          windowOf_append_of_ge W vs v hW hvs]
      · intro hlt2
        simp only [List.length_append, List.length_singleton, List.length_nil,
          List.length_cons] at hlt2
        omega
      · intro _
        refine (List.perm_append_singleton idx _).symm.trans ?_
        rw [hsplit]
        exact hfull hvs

lemma STInv_runFrom (W : Nat) (vs : List Int) :
    ∀ (h : List Int) (st : SumTreeMovingAverage), STInv W h st →
      STInv W (h ++ vs) (vs.foldl (SumTreeMovingAverage.add_sample W) st) := by
  induction vs with
  | nil => intro h st hi; simpa using hi
  | cons v vs ih =>
    intro h st hi
    rw [List.foldl_cons]
    have := ih (h ++ [v]) _ (STInv_step W h v st hi)
    simpa using this

lemma STInv_run (W : Nat) (vs : List Int) : STInv W vs (runSumTree W 0 vs) := by
  have := STInv_runFrom W vs [] _ (STInv_init W)
  simpa [runSumTree] using this

lemma map_getD_range (L : List Int) :
    (List.range L.length).map (fun i => L.getD i 0) = L := by
  apply List.ext_getElem
  · simp
  · intro i h1 h2
    simp only [List.getElem_map, List.getElem_range]
    exact (List.getD_eq_getElem L 0 h2).symm ▸ rfl

lemma getD_of_map_range_eq (f : Nat → Int) (n : Nat) (L : List Int)
    (h : (List.range n).map f = L) (i : Nat) (hi : i < n) :
    f i = L.getD i 0 := by
  subst h
  rw [List.getD_eq_getElem _ 0 (by simpa using hi)]
  simp

lemma runSumTree_leaves_perm (W : Nat) (vs : List Int) :
    (runSumTree W 0 vs).sumTree.leaves.Perm
      (windowOf W vs ++ List.replicate (W - (windowOf W vs).length) 0) := by
  obtain ⟨hz, hlen, hnd, hbd, hcnt, hmap, hpart, hfull⟩ := STInv_run W vs
  set st := runSumTree W 0 vs
  by_cases hge : W ≤ vs.length
  · -- full window: the leaves are a permutation of the window
    have hwlen : (windowOf W vs).length = W := by
      rw [length_windowOf]; omega
    have hrep : W - (windowOf W vs).length = 0 := by omega
    rw [hrep, List.replicate_zero, List.append_nil]
    have hperm : (st.samples.map (fun i => st.sumTree.leaves.getD i 0)).Perm
        ((List.range W).map (fun i => st.sumTree.leaves.getD i 0)) :=
      (hfull hge).map _
    rw [hmap] at hperm
    have hrange : (List.range W).map (fun i => st.sumTree.leaves.getD i 0) =
        st.sumTree.leaves := by
      rw [← hlen]
      exact map_getD_range _
    rw [hrange] at hperm
    exact hperm.symm
  · -- filling phase: leaves = reversed window followed by untouched zeros
    have hvs : vs.length < W := by omega
    obtain ⟨hq, hz0⟩ := hpart hvs
    have hwlen : (windowOf W vs).length = vs.length := by
      rw [length_windowOf]; omega
    have hmap' : (List.range vs.length).map (fun i => st.sumTree.leaves.getD i 0) =
        (windowOf W vs).reverse := by
      rw [hq, List.map_reverse] at hmap
      rw [← hmap, List.reverse_reverse]
    have heq : st.sumTree.leaves =
        (windowOf W vs).reverse ++ List.replicate (W - vs.length) 0 := by
      apply List.ext_getElem
      · simp only [List.length_append, List.length_reverse, List.length_replicate,
          hlen, hwlen]
        omega
      · intro i h1 h2
        have hiW : i < W := by rwa [hlen] at h1
        by_cases hi : i < vs.length
        · have hi2 : i < (windowOf W vs).reverse.length := by
            simpa [hwlen] using hi
          rw [List.getElem_append_left hi2, ← List.getD_eq_getElem _ 0 h1,
            ← List.getD_eq_getElem _ 0 hi2]
          exact getD_of_map_range_eq _ vs.length _ hmap' i hi
        · rw [List.getElem_append_right (by simpa [hwlen] using hi)]
          simp only [List.getElem_replicate]
          rw [← List.getD_eq_getElem _ 0 h1]
          exact hz0 i (by omega)
    rw [heq, hwlen]
    exact (List.reverse_perm _).append_right _

lemma get_root_sum_eq_sum (t : SumTree) (h : t.leaves ≠ []) :
    t.get_root_sum = t.leaves.sum := by
  unfold SumTree.get_root_sum
  cases hL : t.leaves with
  | nil => exact absurd hL h
  | cons x xs =>
    simp only [List.sum_cons]
    rw [foldl_add_eq_add_sum]

lemma runSumTree_root (W : Nat) (vs : List Int) :
    (runSumTree W 0 vs).sumTree.get_root_sum = (windowOf W vs).sum := by
  obtain ⟨hz, hlen, hnd, hbd, hcnt, hmap, hpart, hfull⟩ := STInv_run W vs
  by_cases hW : W = 0
  · have hnil : (runSumTree W 0 vs).sumTree.leaves = [] :=
      List.length_eq_zero.mp (by omega)
    unfold SumTree.get_root_sum
    rw [hnil]
    have hwnil : windowOf W vs = [] := by rw [hW]; exact windowOf_zero vs
    rw [hwnil]
    simpa using hz
  · have hne : (runSumTree W 0 vs).sumTree.leaves ≠ [] := by
      intro hc
      rw [hc] at hlen
      exact hW (by simpa using hlen.symm)
    rw [get_root_sum_eq_sum _ hne, (runSumTree_leaves_perm W vs).sum_eq]
    simp [List.sum_replicate]

/-- The exact average value every strategy should produce on an `Int` run. -/
lemma runNoSum_avg (W : Nat) (vs : List Int) :
    (runNoSum W 0 vs).get_average divisor_exact =
      some (if (windowOf W vs).length = 0 then 0
            else Int.tdiv (windowOf W vs).sum ((windowOf W vs).length : Int)) := by
  rw [runNoSum_eq]
  unfold NoSumMovingAverage.get_average
  by_cases hlen : (windowOf W vs).length = 0
  · simp [hlen]
  · simp only [hlen, if_neg hlen, divisor_exact, foldl_add_eq_add_sum, zero_add]
    simp [hlen]

lemma runSingleSum_avg (W : Nat) (vs : List Int) :
    (runSingleSum W 0 vs).get_average divisor_exact =
      some (if (windowOf W vs).length = 0 then 0
            else Int.tdiv (windowOf W vs).sum ((windowOf W vs).length : Int)) := by
  rw [runSingleSum_eq]
  unfold SingleSumSMA.get_average
  by_cases hlen : (windowOf W vs).length = 0
  · have : windowOf W vs = [] := List.length_eq_zero.mp hlen
    simp [hlen, this]
  · simp [hlen, divisor_exact]

lemma runSumTree_avg (W : Nat) (vs : List Int) :
    (runSumTree W 0 vs).get_average divisor_exact =
      some (if (windowOf W vs).length = 0 then 0
            else Int.tdiv (windowOf W vs).sum ((windowOf W vs).length : Int)) := by
  obtain ⟨hz, hlen, hnd, hbd, hcnt, hmap, hpart, hfull⟩ := STInv_run W vs
  unfold SumTreeMovingAverage.get_average
  have hcnt' : (runSumTree W 0 vs).samples.length = (windowOf W vs).length := by
    rw [length_windowOf]; omega
  by_cases hl : (windowOf W vs).length = 0
  · have hwnil : windowOf W vs = [] := List.length_eq_zero.mp hl
    simp only [hcnt', hl, if_pos rfl, runSumTree_root, hwnil, List.sum_nil]
    simp
  · simp only [hcnt', hl, if_neg hl, divisor_exact, runSumTree_root]
    simp

/-! ## The claims -/

/-- C1: for every strategy, window size `N ≥ 1` and sample sequence, a
non-empty window makes `get_average()` return the sum of the samples in the
window divided by the current count, and an empty window makes it return the
additive-identity zero supplied at construction. -/
theorem claim_C1_average (W : Nat) (_hW : 1 ≤ W) (vs : List Int) :
    ((runNoSum W 0 vs).get_average divisor_exact =
      some (if (runNoSum W 0 vs).get_num_samples = 0 then 0
            else Int.tdiv (windowOf W vs).sum ((runNoSum W 0 vs).get_num_samples : Int))) ∧
    ((runSingleSum W 0 vs).get_average divisor_exact =
      some (if (runSingleSum W 0 vs).get_num_samples = 0 then 0
            else Int.tdiv (windowOf W vs).sum ((runSingleSum W 0 vs).get_num_samples : Int))) ∧
    ((runSumTree W 0 vs).get_average divisor_exact =
      some (if (runSumTree W 0 vs).get_num_samples = 0 then 0
            else Int.tdiv (windowOf W vs).sum ((runSumTree W 0 vs).get_num_samples : Int))) := by
  have hN : (runNoSum W 0 vs).get_num_samples = (windowOf W vs).length := by
    rw [runNoSum_eq]; rfl
  have hS : (runSingleSum W 0 vs).get_num_samples = (windowOf W vs).length := by
    rw [runSingleSum_eq]; rfl
  have hT : (runSumTree W 0 vs).get_num_samples = (windowOf W vs).length := by
    obtain ⟨_, _, _, _, hcnt, _, _, _⟩ := STInv_run W vs
    unfold SumTreeMovingAverage.get_num_samples
    rw [length_windowOf]
    omega
  refine ⟨?_, ?_, ?_⟩
  · rw [hN, runNoSum_avg]
  · rw [hS, runSingleSum_avg]
  · rw [hT, runSumTree_avg]

theorem claim_C1_average_witness :
    ((runNoSum 3 0 [1, 2, 3, 4, 10]).get_average divisor_exact =
      some (if (runNoSum 3 0 [1, 2, 3, 4, 10]).get_num_samples = 0 then 0
            else Int.tdiv (windowOf 3 [1, 2, 3, 4, 10]).sum
              ((runNoSum 3 0 [1, 2, 3, 4, 10]).get_num_samples : Int))) ∧
    ((runSingleSum 3 0 [1, 2, 3, 4, 10]).get_average divisor_exact =
      some (if (runSingleSum 3 0 [1, 2, 3, 4, 10]).get_num_samples = 0 then 0
            else Int.tdiv (windowOf 3 [1, 2, 3, 4, 10]).sum
              ((runSingleSum 3 0 [1, 2, 3, 4, 10]).get_num_samples : Int))) ∧
    ((runSumTree 3 0 [1, 2, 3, 4, 10]).get_average divisor_exact =
      some (if (runSumTree 3 0 [1, 2, 3, 4, 10]).get_num_samples = 0 then 0
            else Int.tdiv (windowOf 3 [1, 2, 3, 4, 10]).sum
              ((runSumTree 3 0 [1, 2, 3, 4, 10]).get_num_samples : Int))) :=
  claim_C1_average 3 (by decide) [1, 2, 3, 4, 10]

/-- C2: on an exactly-representable sample type (`Int`), all three strategies
fed the same samples in the same order return exactly equal `get_average()`
results (after each insertion, since the sequence is arbitrary). -/
theorem claim_C2_agreement (W : Nat) (vs : List Int) :
    (runSingleSum W 0 vs).get_average divisor_exact =
      (runNoSum W 0 vs).get_average divisor_exact ∧
    (runSumTree W 0 vs).get_average divisor_exact =
      (runNoSum W 0 vs).get_average divisor_exact := by
  rw [runSingleSum_avg, runNoSum_avg, runSumTree_avg]
  exact ⟨rfl, rfl⟩

/-- C3: for every strategy and insertion sequence, the sample count equals
`min(total samples added, window size)` and never exceeds the window size. -/
theorem claim_C3_count (W : Nat) (vs : List Int) :
    ((runNoSum W 0 vs).get_num_samples = min vs.length W ∧
      (runNoSum W 0 vs).get_num_samples ≤ (runNoSum W 0 vs).get_sample_window_size W) ∧
    ((runSingleSum W 0 vs).get_num_samples = min vs.length W ∧
      (runSingleSum W 0 vs).get_num_samples ≤
        (runSingleSum W 0 vs).get_sample_window_size W) ∧
    ((runSumTree W 0 vs).get_num_samples = min vs.length W ∧
      (runSumTree W 0 vs).get_num_samples ≤
        (runSumTree W 0 vs).get_sample_window_size W) := by
  have hN : (runNoSum W 0 vs).get_num_samples = min vs.length W := by
    rw [runNoSum_eq]
    unfold NoSumMovingAverage.get_num_samples
    exact length_windowOf W vs
  have hS : (runSingleSum W 0 vs).get_num_samples = min vs.length W := by
    rw [runSingleSum_eq]
    unfold SingleSumSMA.get_num_samples
    exact length_windowOf W vs
  have hT : (runSumTree W 0 vs).get_num_samples = min vs.length W := by
    obtain ⟨_, _, _, _, hcnt, _, _, _⟩ := STInv_run W vs
    exact hcnt
  refine ⟨⟨hN, ?_⟩, ⟨hS, ?_⟩, ⟨hT, ?_⟩⟩ <;>
    simp [hN, hS, hT, NoSumMovingAverage.get_sample_window_size,
      SingleSumSMA.get_sample_window_size, SumTreeMovingAverage.get_sample_window_size]

/-- C4 as stated is false: for the Sum-Tree strategy `get_samples()` returns
all leaf slots, so with window size 2 and a single added sample it has 2
elements while `get_num_samples()` is 1. -/
theorem claim_C4_counterexample :
    ¬ ((runSumTree 2 0 [5]).get_samples.length = (runSumTree 2 0 [5]).get_num_samples) := by
  decide

/-- C4 amended: for the No-Sum and Single-Sum strategies `get_samples()` is
exactly the current window, newest first (so it has `get_num_samples()`
elements, never shows evicted samples, and after `window_size + k` insertions
is exactly the last `window_size` samples). For the Sum-Tree strategy it is
the `window_size` leaf slots in slot order: a permutation of the current
window padded with the construction zeros for the still-unused slots (so
after `window_size + k` insertions it contains exactly the last
`window_size` samples, the most recent included, and never an evicted one). -/
theorem claim_C4_amended (W : Nat) (vs : List Int) :
    (runNoSum W 0 vs).get_samples = windowOf W vs ∧
    (runSingleSum W 0 vs).get_samples = windowOf W vs ∧
    (runNoSum W 0 vs).get_samples.length = (runNoSum W 0 vs).get_num_samples ∧
    (runSingleSum W 0 vs).get_samples.length = (runSingleSum W 0 vs).get_num_samples ∧
    (runSumTree W 0 vs).get_samples.length = W ∧
    (runSumTree W 0 vs).get_samples.Perm
      (windowOf W vs ++ List.replicate (W - (windowOf W vs).length) 0) := by
  obtain ⟨_, hlen, _, _, _, _, _, _⟩ := STInv_run W vs
  refine ⟨?_, ?_, rfl, rfl, ?_, ?_⟩
  · rw [runNoSum_eq]; rfl
  · rw [runSingleSum_eq]; rfl
  · exact hlen
  · exact runSumTree_leaves_perm W vs

lemma sumTree_add_sample_windowZero (st : SumTreeMovingAverage) (v : Int) :
    st.add_sample 0 v = st := by
  simp [SumTreeMovingAverage.add_sample]

lemma runSumTree_windowZero (z : Int) (vs : List Int) :
    runSumTree 0 z vs = SumTreeMovingAverage.from_zero z 0 := by
  have : ∀ (l : List Int) (st : SumTreeMovingAverage),
      l.foldl (SumTreeMovingAverage.add_sample 0) st = st := by
    intro l
    induction l with
    | nil => intro st; rfl
    | cons v l ih =>
      intro st
      rw [List.foldl_cons, sumTree_add_sample_windowZero]
      exact ih st
  exact this vs _

/-- C5: with window size 0, any number of `add_sample` calls is a no-op (the
state stays the freshly constructed one), so `get_num_samples()` is 0 and
`get_average()` returns the configured zero value, for every zero value and
every call sequence. -/
theorem claim_C5_zero_window (z : Int) (vs : List Int) :
    runNoSum 0 z vs = NoSumMovingAverage.from_zero z ∧
    (runNoSum 0 z vs).get_num_samples = 0 ∧
    (runNoSum 0 z vs).get_average divisor_exact = some z ∧
    runSingleSum 0 z vs = SingleSumSMA.from_zero z ∧
    (runSingleSum 0 z vs).get_num_samples = 0 ∧
    (runSingleSum 0 z vs).get_average divisor_exact = some z ∧
    runSumTree 0 z vs = SumTreeMovingAverage.from_zero z 0 ∧
    (runSumTree 0 z vs).get_num_samples = 0 ∧
    (runSumTree 0 z vs).get_average divisor_exact = some z := by
  have hN : runNoSum 0 z vs = NoSumMovingAverage.from_zero z := by
    rw [runNoSum_eq]
    simp [NoSumMovingAverage.from_zero, windowOf_zero]
  have hS : runSingleSum 0 z vs = SingleSumSMA.from_zero z := by
    rw [runSingleSum_eq]
    simp [SingleSumSMA.from_zero, windowOf_zero]
  have hT : runSumTree 0 z vs = SumTreeMovingAverage.from_zero z 0 :=
    runSumTree_windowZero z vs
  refine ⟨hN, ?_, ?_, hS, ?_, ?_, hT, ?_, ?_⟩ <;>
    simp [hN, hS, hT, NoSumMovingAverage.from_zero, SingleSumSMA.from_zero,
      SumTreeMovingAverage.from_zero, SumTree.new,
      NoSumMovingAverage.get_num_samples, SingleSumSMA.get_num_samples,
      SumTreeMovingAverage.get_num_samples, NoSumMovingAverage.get_average,
      SingleSumSMA.get_average, SumTreeMovingAverage.get_average,
      SumTree.get_root_sum]

/-- C6: for every strategy and every divisor conversion, `get_average()`
aborts (the divisor-conversion panic, modelled by `none`) exactly when the
window is non-empty and the current count is not representable in the divisor
type; in every other state it returns a value, so nothing is silently
truncated or deferred. -/
theorem claim_C6_divisor_abort (fu : Nat → Option Int) (stN : NoSumMovingAverage)
    (stS : SingleSumSMA) (stT : SumTreeMovingAverage) :
    (stN.get_average fu = none ↔
      stN.get_num_samples ≠ 0 ∧ fu stN.get_num_samples = none) ∧
    (stS.get_average fu = none ↔
      stS.get_num_samples ≠ 0 ∧ fu stS.get_num_samples = none) ∧
    (stT.get_average fu = none ↔
      stT.get_num_samples ≠ 0 ∧ fu stT.get_num_samples = none) := by
  refine ⟨?_, ?_, ?_⟩
  · unfold NoSumMovingAverage.get_average NoSumMovingAverage.get_num_samples
    by_cases h : stN.samples.length = 0
    · simp [h]
    · cases hfu : fu stN.samples.length <;> simp [h, hfu]
  · unfold SingleSumSMA.get_average SingleSumSMA.get_num_samples
    by_cases h : stS.samples.length = 0
    · simp [h]
    · cases hfu : fu stS.samples.length <;> simp [h, hfu]
  · unfold SumTreeMovingAverage.get_average SumTreeMovingAverage.get_num_samples
    by_cases h : stT.samples.length = 0
    · simp [h]
    · cases hfu : fu stT.samples.length <;> simp [h, hfu]

lemma windowOf_append_head (W : Nat) (hW : W ≠ 0) (vs : List Int) (v : Int) :
    (windowOf W (vs ++ [v])).head? = some v := by
  obtain ⟨m, rfl⟩ : ∃ m, W = m + 1 := ⟨W - 1, by omega⟩
  rw [windowOf_append, List.take_succ_cons]
  rfl

lemma windowOf_eq_nil_iff (W : Nat) (hW : W ≠ 0) (vs : List Int) :
    windowOf W vs = [] ↔ vs = [] := by
  constructor
  · intro h
    have := congrArg List.length h
    rw [length_windowOf] at this
    simp only [List.length_nil] at this
    have : vs.length = 0 := by omega
    exact List.length_eq_zero.mp this
  · intro h
    rw [h, windowOf_nil]

lemma runSumTree_most_recent_append (W : Nat) (hW : W ≠ 0) (vs : List Int) (v : Int) :
    (runSumTree W 0 (vs ++ [v])).get_most_recent_sample = some v := by
  obtain ⟨hz, hlen, hnd, hbd, hcnt, hmap, hpart, hfull⟩ := STInv_run W (vs ++ [v])
  set st := runSumTree W 0 (vs ++ [v]) with hst
  have hpos : 0 < st.samples.length := by
    rw [hcnt]
    simp only [List.length_append, List.length_singleton]
    omega
  cases hsam : st.samples with
  | nil => rw [hsam] at hpos; simp at hpos
  | cons i rest =>
    have hiW : i < W := hbd i (by rw [hsam]; exact List.mem_cons_self i rest)
    rw [hsam, List.map_cons] at hmap
    have hhead : st.sumTree.leaves.getD i 0 = v := by
      have hw : (windowOf W (vs ++ [v])).head? = some v :=
        windowOf_append_head W hW vs v
      rw [← hmap] at hw
      simpa using hw
    unfold SumTreeMovingAverage.get_most_recent_sample SumTree.get_leaf_node_sum
    rw [hsam]
    simp only [List.head?_cons]
    have hi_lt : i < st.sumTree.leaves.length := by omega
    have hred : ((some i).bind fun j => st.sumTree.leaves[j]?) =
        st.sumTree.leaves[i]? := rfl
    rw [hred, List.getElem?_eq_getElem hi_lt, ← List.getD_eq_getElem _ 0 hi_lt, hhead]

lemma runSumTree_most_recent_none_iff (W : Nat) (hW : W ≠ 0) (vs : List Int) :
    (runSumTree W 0 vs).get_most_recent_sample = none ↔ vs = [] := by
  constructor
  · intro h
    rcases List.eq_nil_or_concat vs with hnil | ⟨L, b, hcat⟩
    · exact hnil
    · rw [hcat, List.concat_eq_append] at h
      rw [runSumTree_most_recent_append W hW L b] at h
      exact absurd h (by simp)
  · intro h
    subst h
    rfl

/-- C7: for every strategy with window size ≥ 1, after a call sequence ending
in `add_sample(v)`, `get_most_recent_sample()` returns `Some(v)`; and it
returns `None` exactly when the window is empty (no sample was ever added). -/
theorem claim_C7_most_recent (W : Nat) (hW : 1 ≤ W) :
    (∀ (vs : List Int) (v : Int),
        (runNoSum W 0 (vs ++ [v])).get_most_recent_sample = some v ∧
        (runSingleSum W 0 (vs ++ [v])).get_most_recent_sample = some v ∧
        (runSumTree W 0 (vs ++ [v])).get_most_recent_sample = some v) ∧
    (∀ vs : List Int,
        ((runNoSum W 0 vs).get_most_recent_sample = none ↔ vs = []) ∧
        ((runSingleSum W 0 vs).get_most_recent_sample = none ↔ vs = []) ∧
        ((runSumTree W 0 vs).get_most_recent_sample = none ↔ vs = [])) := by
  have hW' : W ≠ 0 := by omega
  constructor
  · intro vs v
    refine ⟨?_, ?_, runSumTree_most_recent_append W hW' vs v⟩
    · rw [runNoSum_eq]
      unfold NoSumMovingAverage.get_most_recent_sample
      exact windowOf_append_head W hW' vs v
    · rw [runSingleSum_eq]
      unfold SingleSumSMA.get_most_recent_sample
      exact windowOf_append_head W hW' vs v
  · intro vs
    refine ⟨?_, ?_, runSumTree_most_recent_none_iff W hW' vs⟩
    · rw [runNoSum_eq]
      unfold NoSumMovingAverage.get_most_recent_sample
      rw [List.head?_eq_none_iff]
      exact windowOf_eq_nil_iff W hW' vs
    · rw [runSingleSum_eq]
      unfold SingleSumSMA.get_most_recent_sample
      rw [List.head?_eq_none_iff]
      exact windowOf_eq_nil_iff W hW' vs

theorem claim_C7_most_recent_witness :
    ((runNoSum 3 0 ([1, 2] ++ [7])).get_most_recent_sample = some 7 ∧
      (runSingleSum 3 0 ([1, 2] ++ [7])).get_most_recent_sample = some 7 ∧
      (runSumTree 3 0 ([1, 2] ++ [7])).get_most_recent_sample = some 7) ∧
    (((runNoSum 3 0 []).get_most_recent_sample = none ↔ ([] : List Int) = []) ∧
      ((runSingleSum 3 0 []).get_most_recent_sample = none ↔ ([] : List Int) = []) ∧
      ((runSumTree 3 0 []).get_most_recent_sample = none ↔ ([] : List Int) = [])) :=
  ⟨(claim_C7_most_recent 3 (by decide)).1 [1, 2] 7,
    (claim_C7_most_recent 3 (by decide)).2 []⟩

/-- C8: for window size ≥ 1, `SumTreeMovingAverage::add_sample` coincides, on
every state, with the algorithm as the spec words it: allocate the next
unused slot while filling, else reuse the slot popped from the back of the
position queue; write the value through `update_leaf_node_sample`; push the
slot index onto the front of the queue. -/
theorem claim_C8_add_sample_alg (W : Nat) (hW : 1 ≤ W) (st : SumTreeMovingAverage)
    (v : Int) :
    st.add_sample W v = st.add_sample_spec_alg W v := by
  have hW' : ¬(W = 0) := by omega
  unfold SumTreeMovingAverage.add_sample SumTreeMovingAverage.add_sample_spec_alg
  simp only [hW', if_false]
  by_cases hlt : st.samples.length < W
  · simp [hlt]
  · simp only [hlt, if_false]
    cases hl : st.samples.getLast? with
    | some idx => simp
    | none =>
      have hnil : st.samples = [] := List.getLast?_eq_none_iff.mp hl
      rw [hnil] at hlt
      simp only [List.length_nil] at hlt
      omega

theorem claim_C8_add_sample_alg_witness :
    SumTreeMovingAverage.add_sample 2 (runSumTree 2 0 [1, 2, 3]) 9 =
      SumTreeMovingAverage.add_sample_spec_alg 2 (runSumTree 2 0 [1, 2, 3]) 9 :=
  claim_C8_add_sample_alg 2 (by decide) (runSumTree 2 0 [1, 2, 3]) 9

/-- C9: in every reachable state of a `SumTreeMovingAverage`, the position
queue holds pairwise-distinct slot indices, all `< N`, and at most `N` of
them; hence the `pop_back().unwrap()` in `add_sample` never panics and the
slot index passed to `update_leaf_node_sample` is always in range. -/
theorem claim_C9_queue_invariant (W : Nat) (vs : List Int) :
    (runSumTree W 0 vs).samples.Nodup ∧
    (∀ i ∈ (runSumTree W 0 vs).samples, i < W) ∧
    (runSumTree W 0 vs).samples.length ≤ W ∧
    ¬ SumTreeMovingAverage.pop_back_faults W (runSumTree W 0 vs) ∧
    (1 ≤ W →
      (if (runSumTree W 0 vs).samples.length < W
        then (runSumTree W 0 vs).samples.length
        else (runSumTree W 0 vs).samples.getLast?.getD W) < W) := by
  obtain ⟨hz, hlen, hnd, hbd, hcnt, hmap, hpart, hfull⟩ := STInv_run W vs
  refine ⟨hnd, hbd, by omega, ?_, ?_⟩
  · rintro ⟨hW0, hge, hnil⟩
    rw [hnil] at hcnt
    simp only [List.length_nil] at hcnt
    rw [hnil] at hge
    simp only [List.length_nil] at hge
    omega
  · intro hW
    by_cases hlt : (runSumTree W 0 vs).samples.length < W
    · rw [if_pos hlt]
      exact hlt
    · have hne : (runSumTree W 0 vs).samples ≠ [] := by
        intro hc
        rw [hc] at hlt
        simp only [List.length_nil] at hlt
        omega
      rw [if_neg hlt, List.getLast?_eq_getLast _ hne, Option.getD_some]
      exact hbd _ (List.getLast_mem hne)

theorem claim_C9_queue_invariant_witness :
    (runSumTree 2 0 [1, 2, 3]).samples.Nodup ∧
    (∀ i ∈ (runSumTree 2 0 [1, 2, 3]).samples, i < 2) ∧
    (runSumTree 2 0 [1, 2, 3]).samples.length ≤ 2 ∧
    ¬ SumTreeMovingAverage.pop_back_faults 2 (runSumTree 2 0 [1, 2, 3]) ∧
    ((if (runSumTree 2 0 [1, 2, 3]).samples.length < 2
        then (runSumTree 2 0 [1, 2, 3]).samples.length
        else (runSumTree 2 0 [1, 2, 3]).samples.getLast?.getD 2) < 2) :=
  ⟨(claim_C9_queue_invariant 2 [1, 2, 3]).1,
    (claim_C9_queue_invariant 2 [1, 2, 3]).2.1,
    (claim_C9_queue_invariant 2 [1, 2, 3]).2.2.1,
    (claim_C9_queue_invariant 2 [1, 2, 3]).2.2.2.1,
    (claim_C9_queue_invariant 2 [1, 2, 3]).2.2.2.2 (by decide)⟩

/-! ## RingBuffer lemmas and C10 -/

namespace RingBuffer

lemma wrapping_add_some (C x y : Nat) (hC : C ≠ 0) :
    wrapping_add C x y = some ((x + y) % C) := by
  simp [wrapping_add, hC]

lemma wrapping_sub_total (C fi n : Nat) (hfi : fi < C) (hn : n ≤ C) :
    ∃ r, wrapping_sub C fi n = some r ∧ r < C := by
  unfold wrapping_sub
  rw [if_neg (by omega)]
  by_cases h : fi < n
  · rw [if_pos h]
    exact ⟨_, rfl, by omega⟩
  · rw [if_neg h]
    exact ⟨_, rfl, by omega⟩

lemma push_front_total (C : Nat) (rb : RingBuffer) (v : Int) (h : RBInv C rb) :
    ∃ rb2, push_front C rb v = some rb2 ∧ RBInv C rb2 := by
  obtain ⟨hl, hf, hn⟩ := h
  have hC : C ≠ 0 := by omega
  unfold push_front
  rw [if_pos (by omega), wrapping_add_some C rb.front_idx 1 hC]
  refine ⟨_, rfl, ?_, ?_, ?_⟩
  · show (rb.items.set rb.front_idx v).length = C
    simpa using hl
  · show (rb.front_idx + 1) % C < C
    exact Nat.mod_lt _ (by omega)
  · show min C (rb.num_items + 1) ≤ C
    omega

lemma pop_back_total (C : Nat) (rb : RingBuffer) (h : RBInv C rb) :
    ∃ res, pop_back C rb = some res ∧ RBInv C res.2 ∧
      (res.1 = none ↔ rb.num_items = 0) := by
  obtain ⟨hl, hf, hn⟩ := h
  unfold pop_back
  by_cases hpos : 0 < rb.num_items
  · rw [if_pos hpos]
    obtain ⟨r, hr, hrC⟩ := wrapping_sub_total C rb.front_idx rb.num_items hf hn
    have hrlt : r < rb.items.length := by omega
    refine ⟨(some (rb.items.get ⟨r, hrlt⟩), ⟨rb.items, rb.front_idx, rb.num_items - 1⟩),
      ?_, ⟨hl, hf, ?_⟩, by simp; omega⟩
    · simp only [hr, List.getElem?_eq_getElem hrlt]
      rfl
    · show rb.num_items - 1 ≤ C
      omega
  · rw [if_neg hpos]
    exact ⟨_, rfl, ⟨hl, hf, hn⟩, by simp; omega⟩

lemma front_total (C : Nat) (rb : RingBuffer) (h : RBInv C rb) :
    ∃ fr, front C rb = some fr ∧ (fr = none ↔ rb.num_items = 0) := by
  obtain ⟨hl, hf, hn⟩ := h
  unfold front
  by_cases hpos : 0 < rb.num_items
  · rw [if_pos hpos]
    obtain ⟨r, hr, hrC⟩ := wrapping_sub_total C rb.front_idx 1 hf (by omega)
    have hrlt : r < rb.items.length := by omega
    refine ⟨some (rb.items.get ⟨r, hrlt⟩), ?_, by simp; omega⟩
    simp only [hr, List.getElem?_eq_getElem hrlt]
    rfl
  · rw [if_neg hpos]
    exact ⟨_, rfl, by simp; omega⟩

lemma shift_total (C : Nat) (rb : RingBuffer) (v : Int) (h : RBInv C rb) :
    ∃ res, shift C rb v = some res ∧ RBInv C res.2 := by
  unfold shift
  by_cases hfull : rb.num_items = C
  · rw [if_pos hfull]
    obtain ⟨res1, hres1, hinv1, _⟩ := pop_back_total C rb h
    obtain ⟨rb2, hrb2, hinv2⟩ := push_front_total C res1.2 v hinv1
    cases res1 with
    | mk popped rb1 =>
      simp only at hrb2
      refine ⟨(popped, rb2), ?_, hinv2⟩
      simp only [hres1, hrb2]
  · rw [if_neg hfull]
    obtain ⟨rb2, hrb2, hinv2⟩ := push_front_total C rb v h
    refine ⟨(none, rb2), ?_, hinv2⟩
    simp only [hrb2]

lemma iterAux_total (C : Nat) (items : List Int) (hlen : items.length = C) :
    ∀ (k cursor : Nat), cursor < C →
      ∃ l, iterAux C items cursor k = some l ∧ l.length = k := by
  intro k
  induction k with
  | zero => intro cursor _; exact ⟨[], rfl, rfl⟩
  | succ k ih =>
    intro cursor hcur
    have hC : C ≠ 0 := by omega
    have hclt : cursor < items.length := by omega
    unfold iterAux
    obtain ⟨rest, hrest, hrlen⟩ := ih ((cursor + 1) % C) (Nat.mod_lt _ (by omega))
    refine ⟨items.get ⟨cursor, hclt⟩ :: rest, ?_, by simp [hrlen]⟩
    simp only [List.getElem?_eq_getElem hclt, wrapping_add_some C cursor 1 hC, hrest]
    rfl

lemma iterList_total (C : Nat) (rb : RingBuffer) (h : RBInv C rb) :
    ∃ l, iterList C rb = some l ∧ l.length = rb.num_items := by
  obtain ⟨hl, hf, hn⟩ := h
  unfold iterList
  obtain ⟨c0, hc0, hc0C⟩ := wrapping_sub_total C rb.front_idx rb.num_items hf hn
  rw [hc0]
  exact iterAux_total C rb.items hl rb.num_items c0 hc0C

end RingBuffer

/-- C10: `RingBuffer` is total and panic-free exactly for `CAPACITY ≥ 1`:
with `CAPACITY = 0`, `push_front` (and therefore `shift`) faults; with
`CAPACITY ≥ 1` and the representation invariant, `push_front`, `pop_back`,
`front`, `shift` and iteration all succeed and stay in bounds (preserving the
invariant), `pop_back` and `front` return `None` exactly on an empty buffer,
and a fresh buffer satisfies the invariant. -/
theorem claim_C10_ring_buffer (C : Nat) (rb : RingBuffer) (v z : Int) :
    (rb.items.length = 0 →
      RingBuffer.push_front 0 rb v = none ∧ RingBuffer.shift 0 rb v = none) ∧
    (RingBuffer.RBInv C rb →
      (∃ rb2, RingBuffer.push_front C rb v = some rb2 ∧ RingBuffer.RBInv C rb2) ∧
      (∃ res, RingBuffer.pop_back C rb = some res ∧ RingBuffer.RBInv C res.2 ∧
        (res.1 = none ↔ rb.num_items = 0)) ∧
      (∃ fr, RingBuffer.front C rb = some fr ∧ (fr = none ↔ rb.num_items = 0)) ∧
      (∃ res, RingBuffer.shift C rb v = some res ∧ RingBuffer.RBInv C res.2) ∧
      (∃ l, RingBuffer.iterList C rb = some l ∧ l.length = rb.num_items)) ∧
    (1 ≤ C → RingBuffer.RBInv C (RingBuffer.new C z)) := by
  refine ⟨?_, ?_, ?_⟩
  · intro hlen0
    have hp : RingBuffer.push_front 0 rb v = none := by
      unfold RingBuffer.push_front
      rw [if_neg (by omega)]
    refine ⟨hp, ?_⟩
    unfold RingBuffer.shift
    by_cases hful : rb.num_items = 0
    · rw [if_pos hful]
      have hpop : RingBuffer.pop_back 0 rb = some (none, rb) := by
        unfold RingBuffer.pop_back
        rw [if_neg (by omega)]
      simp only [hpop, hp]
    · rw [if_neg hful]
      simp only [hp]
  · intro hinv
    exact ⟨RingBuffer.push_front_total C rb v hinv,
      RingBuffer.pop_back_total C rb hinv,
      RingBuffer.front_total C rb hinv,
      RingBuffer.shift_total C rb v hinv,
      RingBuffer.iterList_total C rb hinv⟩
  · intro hC
    exact ⟨by simp [RingBuffer.new], by simpa [RingBuffer.new] using hC,
      by simp [RingBuffer.new]⟩

theorem claim_C10_ring_buffer_witness :
    ((RingBuffer.mk [] 0 0).items.length = 0 →
      RingBuffer.push_front 0 (RingBuffer.mk [] 0 0) 7 = none ∧
      RingBuffer.shift 0 (RingBuffer.mk [] 0 0) 7 = none) ∧
    ((∃ rb2, RingBuffer.push_front 3 (RingBuffer.mk [1, 2, 3] 1 2) 7 = some rb2 ∧
        RingBuffer.RBInv 3 rb2) ∧
      (∃ res, RingBuffer.pop_back 3 (RingBuffer.mk [1, 2, 3] 1 2) = some res ∧
        RingBuffer.RBInv 3 res.2 ∧
        (res.1 = none ↔ (RingBuffer.mk [1, 2, 3] 1 2).num_items = 0)) ∧
      (∃ fr, RingBuffer.front 3 (RingBuffer.mk [1, 2, 3] 1 2) = some fr ∧
        (fr = none ↔ (RingBuffer.mk [1, 2, 3] 1 2).num_items = 0)) ∧
      (∃ res, RingBuffer.shift 3 (RingBuffer.mk [1, 2, 3] 1 2) 7 = some res ∧
        RingBuffer.RBInv 3 res.2) ∧
      (∃ l, RingBuffer.iterList 3 (RingBuffer.mk [1, 2, 3] 1 2) = some l ∧
        l.length = (RingBuffer.mk [1, 2, 3] 1 2).num_items)) ∧
    RingBuffer.RBInv 3 (RingBuffer.new 3 0) :=
  ⟨(claim_C10_ring_buffer 0 (RingBuffer.mk [] 0 0) 7 0).1,
    (claim_C10_ring_buffer 3 (RingBuffer.mk [1, 2, 3] 1 2) 7 0).2.1 (by decide),
    (claim_C10_ring_buffer 3 (RingBuffer.mk [1, 2, 3] 1 2) 7 0).2.2 (by decide)⟩
